import Mathlib

/-!
Verification of the turnish HTML-to-Markdown conversion engine.

Strings are modelled as `List Char` (JavaScript strings are sequences of
code units; every operation used by the engine is character-wise).
Each definition is a direct translation of the corresponding function in
the TypeScript source.
-/

namespace Turnish

/-- The backtick character (code point 96). -/
def backtickChar : Char := Char.ofNat 96

/-! ## utilities.ts : newline trimming -/

/-- `trimLeadingNewlines` from utilities.ts: `string.replace(/^\n*/, '')`. -/
def trimLeadingNewlines (s : List Char) : List Char :=
  s.dropWhile (fun c => c == '\n')

/-- `trimTrailingNewlines` from utilities.ts: drops the trailing run of
newline characters (the source walks `indexEnd` back from the end while the
last character is a newline and takes the prefix). -/
def trimTrailingNewlines (s : List Char) : List Char :=
  (s.reverse.dropWhile (fun c => c == '\n')).reverse

/-- `trimNewlines` from utilities.ts. -/
def trimNewlines (s : List Char) : List Char :=
  trimTrailingNewlines (trimLeadingNewlines s)

/-! ## index.ts : the join algorithm -/

/-- `join(output, replacement)` from index.ts:
strips trailing newlines from `output` and leading newlines from
`replacement`, then re-inserts `'\n\n'.substring(0, nls)` where
`nls = max(strippedFromOutput, strippedFromReplacement)`; the substring
yields `min nls 2` newline characters. -/
def join (output replacement : List Char) : List Char :=
  let s1 := trimTrailingNewlines output
  let s2 := trimLeadingNewlines replacement
  let nls := max (output.length - s1.length) (replacement.length - s2.length)
  s1 ++ List.replicate (min nls 2) '\n' ++ s2

/-! ### helper lemmas about dropWhile-based trimming -/

lemma head_dropWhile_false (p : Char → Bool) :
    ∀ (l : List Char) (c : Char), (l.dropWhile p).head? = some c → p c = false := by
  intro l
  induction l with
  | nil => intro c h; simp [List.dropWhile] at h
  | cons a t ih =>
    intro c h
    by_cases hp : p a
    · rw [List.dropWhile_cons_of_pos hp] at h
      exact ih c h
    · rw [List.dropWhile_cons_of_neg hp] at h
      simp at h
      rw [← h]
      exact Bool.of_not_eq_true hp

lemma trimLeadingNewlines_head (s : List Char) :
    (trimLeadingNewlines s).head? ≠ some '\n' := by
  intro h
  have := head_dropWhile_false (fun c => c == '\n') s '\n' h
  simp at this

lemma trimTrailingNewlines_getLast (s : List Char) :
    (trimTrailingNewlines s).getLast? ≠ some '\n' := by
  intro h
  unfold trimTrailingNewlines at h
  rw [List.getLast?_reverse] at h
  have := head_dropWhile_false (fun c => c == '\n') s.reverse '\n' h
  simp at this

/-- **C1**: the join operation strips trailing newlines from the output and
leading newlines from the replacement and re-inserts
`min 2 (max strippedTrailing strippedLeading)` newline characters at the
seam; consequently, whenever either side contributed two or more newlines
at the boundary (as adjacent block-level results always do), the boundary
consists of exactly two newline characters — the stripped left part never
ends in a newline and the stripped right part never starts with one, so no
longer newline run can appear there. -/
theorem join_block_boundary_exactly_two_newlines
    (output replacement : List Char)
    (h : 2 ≤ max (output.length - (trimTrailingNewlines output).length)
               (replacement.length - (trimLeadingNewlines replacement).length)) :
    join output replacement =
        trimTrailingNewlines output
          ++ List.replicate
              (min (max (output.length - (trimTrailingNewlines output).length)
                        (replacement.length - (trimLeadingNewlines replacement).length)) 2)
              '\n'
          ++ trimLeadingNewlines replacement
      ∧ join output replacement =
          trimTrailingNewlines output ++ '\n' :: '\n' :: trimLeadingNewlines replacement
      ∧ (trimTrailingNewlines output).getLast? ≠ some '\n'
      ∧ (trimLeadingNewlines replacement).head? ≠ some '\n' := by
  refine ⟨rfl, ?_, trimTrailingNewlines_getLast output, trimLeadingNewlines_head replacement⟩
  show trimTrailingNewlines output
      ++ List.replicate
          (min (max (output.length - (trimTrailingNewlines output).length)
                    (replacement.length - (trimLeadingNewlines replacement).length)) 2)
          '\n'
      ++ trimLeadingNewlines replacement = _
  rw [Nat.min_eq_right h]
  simp [List.replicate, List.append_assoc]

/-- Witness for C1 at `output = "x\n\n"`, `replacement = "\n\ny"`. -/
theorem join_block_boundary_witness :
    join ("x\n\n".toList) ("\n\ny".toList) =
      trimTrailingNewlines ("x\n\n".toList)
        ++ '\n' :: '\n' :: trimLeadingNewlines ("\n\ny".toList) :=
  (join_block_boundary_exactly_two_newlines ("x\n\n".toList) ("\n\ny".toList)
    (by decide)).2.1

/-! ## default-rules.ts : fencedCodeBlock -/

/-- The ECMAScript LineTerminator set: LF, CR, LINE SEPARATOR U+2028 and
PARAGRAPH SEPARATOR U+2029. With the `m` flag, the `^` anchor matches at
position 0 and immediately after any single one of these characters (a
CRLF pair therefore carries an anchor between its two characters). -/
def isLineTerminator (c : Char) : Bool :=
  c == '\n' || c == '\r' || c == Char.ofNat 0x2028 || c == Char.ofNat 0x2029

/-- Length of the run of the fence character at a given position; the
regex `^fenceChar{3,}` matches at an anchored position exactly when this
run has length at least 3, and the greedy match then covers the whole
run. -/
def lineStartRun (fc : Char) (line : List Char) : Nat :=
  (line.takeWhile (fun c => c == fc)).length

/-- The `while ((match = fenceInCodeRegex.exec(code)))` loop of
`defaultRules.fencedCodeBlock.replacement`, scanning the string the way
`exec` with the `gm` flags does: the `^` anchor holds at position 0 and
after every LineTerminator character; at an anchored fence-character run
of length `r ≥ 3` the regex matches those `r` characters, the loop body
sets `fenceSize := r + 1` when `r ≥ fenceSize`, and `lastIndex` jumps
past the match (so positions inside it are never retried — the position
after the match is anchored exactly when the fence character is itself a
LineTerminator); everywhere else the search advances one character. The
fuel, instantiated with the string length (an upper bound on the number
of scanning steps), makes the recursion structural. -/
def fenceScanAux (fc : Char) : Nat → List Char → Bool → Nat → Nat
  | 0, _, _, fenceSize => fenceSize
  | _ + 1, [], _, fenceSize => fenceSize
  | fuel + 1, c :: rest, anchor, fenceSize =>
    let r := lineStartRun fc (c :: rest)
    if anchor ∧ 3 ≤ r then
      fenceScanAux fc fuel ((c :: rest).drop r) (isLineTerminator fc)
        (if fenceSize ≤ r then r + 1 else fenceSize)
    else
      fenceScanAux fc fuel rest (isLineTerminator c) fenceSize

/-- The fence size the `exec` loop computes, starting from 3 at the
anchored start of the string. -/
def fenceSizeScan (fc : Char) (code : List Char) : Nat :=
  fenceScanAux fc code.length code true 3

/-- The fence-character runs at every anchored position of the string:
position 0 and each position following a LineTerminator character. -/
def anchoredRuns (fc : Char) : List Char → Bool → List Nat
  | [], _ => []
  | c :: rest, anchor =>
    (if anchor then [lineStartRun fc (c :: rest)] else [])
      ++ anchoredRuns fc rest (isLineTerminator c)

/-- `code.replace(/\n$/, '')`: removes a single trailing newline. -/
def stripOneTrailingNewline (s : List Char) : List Char :=
  match s.getLast? with
  | some '\n' => s.dropLast
  | _ => s

/-- `defaultRules.fencedCodeBlock.replacement`, after extraction of the
code text and language token: fence character is `options.fence`'s first
character (backtick when absent/empty), fence length from `fenceSizeScan`,
emitting `'\n\n' + fence + language + '\n' + code-minus-one-trailing-newline
+ '\n' + fence + '\n\n'`. -/
def fencedCodeBlockReplacement (fence language code : List Char) : List Char :=
  let fenceChar := fence.headD backtickChar
  let fenceSize := fenceSizeScan fenceChar code
  let f := List.replicate fenceSize fenceChar
  '\n' :: '\n' :: (f ++ language ++ '\n' ::
    (stripOneTrailingNewline code ++ '\n' :: (f ++ ['\n', '\n'])))

/-- The contribution of qualifying (length ≥ 3) line-start runs to the
fence size: the maximum of `r + 1` over qualifying runs `r`, 0 if none. -/
def qualifyingBound (rs : List Nat) : Nat :=
  rs.foldr (fun r acc => if 3 ≤ r then max (r + 1) acc else acc) 0

lemma fenceStep_eq_max (sz r : Nat) :
    (if 3 ≤ r then (if sz ≤ r then r + 1 else sz) else sz)
      = (if 3 ≤ r then max sz (r + 1) else sz) := by
  by_cases h3 : 3 ≤ r
  · simp only [if_pos h3, Nat.max_def]
    split_ifs <;> omega
  · simp [h3]

lemma qualifyingBound_cons (a : Nat) (rs : List Nat) :
    qualifyingBound (a :: rs)
      = if 3 ≤ a then max (a + 1) (qualifyingBound rs) else qualifyingBound rs := rfl

lemma lineStartRun_cons_pos (fc : Char) (rest : List Char) :
    lineStartRun fc (fc :: rest) = lineStartRun fc rest + 1 := by
  unfold lineStartRun
  rw [List.takeWhile_cons_of_pos (by simp)]
  rfl

lemma head_eq_of_run_pos (fc c : Char) (rest : List Char)
    (h : 1 ≤ lineStartRun fc (c :: rest)) : c = fc := by
  by_contra hne
  unfold lineStartRun at h
  rw [List.takeWhile_cons_of_neg (by simpa using hne)] at h
  simp at h

/-- Anchors strictly inside (and immediately after) a matched run carry
runs shorter than the match, so under a bound that already dominates the
match they contribute nothing to the qualifying maximum: skipping them —
as `exec`'s `lastIndex` does — is harmless. -/
lemma absorb_run_anchors (fc : Char) :
    ∀ (m : Nat) (s : List Char) (M : Nat), lineStartRun fc s = m → m + 1 ≤ M →
      max M (qualifyingBound (anchoredRuns fc s (isLineTerminator fc)))
        = max M (qualifyingBound (anchoredRuns fc (s.drop m) (isLineTerminator fc))) := by
  intro m
  induction m with
  | zero => intro s M _ _; rfl
  | succ k ih =>
    intro s M hrun hM
    match s with
    | [] => simp [lineStartRun] at hrun
    | c :: rest =>
      have hc : c = fc := head_eq_of_run_pos fc c rest (by omega)
      subst hc
      have hrest : lineStartRun c rest = k := by
        have := lineStartRun_cons_pos c rest
        omega
      have hdrop : (c :: rest).drop (k + 1) = rest.drop k := List.drop_succ_cons
      rw [hdrop, anchoredRuns]
      by_cases ht : isLineTerminator c = true
      · rw [if_pos ht]
        simp only [List.singleton_append, hrun, qualifyingBound_cons]
        by_cases h3 : 3 ≤ k + 1
        · rw [if_pos h3, ← Nat.max_assoc, Nat.max_eq_left (by omega : k + 1 + 1 ≤ M)]
          exact ih rest M hrest (by omega)
        · rw [if_neg h3]
          exact ih rest M hrest (by omega)
      · rw [if_neg ht]
        simp only [List.nil_append]
        exact ih rest M hrest (by omega)

/-- The scanner computes `max` of its running fence size and the
qualifying bound of the anchored runs of the remaining string. -/
lemma fenceScanAux_eq (fc : Char) :
    ∀ (fuel : Nat) (s : List Char) (anchor : Bool) (sz : Nat),
      s.length ≤ fuel → 3 ≤ sz →
      fenceScanAux fc fuel s anchor sz
        = max sz (qualifyingBound (anchoredRuns fc s anchor)) := by
  intro fuel
  induction fuel with
  | zero =>
    intro s anchor sz hlen _
    have hs : s = [] := List.eq_nil_of_length_eq_zero (Nat.le_zero.mp hlen)
    subst hs
    simp [fenceScanAux, anchoredRuns, qualifyingBound]
  | succ fuel ih =>
    intro s anchor sz hlen hsz
    match s with
    | [] => simp [fenceScanAux, anchoredRuns, qualifyingBound]
    | c :: rest =>
      simp only [fenceScanAux]
      by_cases hcond : anchor = true ∧ 3 ≤ lineStartRun fc (c :: rest)
      · obtain ⟨ha, hr⟩ := hcond
        rw [if_pos ⟨ha, hr⟩]
        have hc : c = fc := head_eq_of_run_pos fc c rest (by omega)
        have hsucc : lineStartRun fc (c :: rest) = lineStartRun fc rest + 1 := by
          rw [hc]
          exact lineStartRun_cons_pos fc rest
        have hterm : isLineTerminator c = isLineTerminator fc := by rw [hc]
        have hstep : (if sz ≤ lineStartRun fc (c :: rest)
              then lineStartRun fc (c :: rest) + 1 else sz)
            = max sz (lineStartRun fc (c :: rest) + 1) := by
          rw [Nat.max_def]
          split_ifs <;> omega
        rw [hstep, ih ((c :: rest).drop (lineStartRun fc (c :: rest)))
            (isLineTerminator fc) _
            (by
              rw [List.length_drop]
              simp only [List.length_cons] at hlen ⊢
              omega)
            (Nat.le_trans hsz (Nat.le_max_left _ _))]
        simp only [anchoredRuns, ha, if_true, List.singleton_append,
          qualifyingBound_cons, if_pos hr, hterm]
        rw [absorb_run_anchors fc (lineStartRun fc rest) rest
            (lineStartRun fc (c :: rest) + 1) rfl (by omega)]
        rw [show rest.drop (lineStartRun fc rest)
              = (c :: rest).drop (lineStartRun fc (c :: rest)) by
            rw [hsucc, List.drop_succ_cons]]
        rw [← Nat.max_assoc]
      · rw [if_neg hcond,
          ih rest (isLineTerminator c) sz
            (by simp only [List.length_cons] at hlen; omega) hsz]
        simp only [anchoredRuns]
        by_cases ha : anchor = true
        · have hr : ¬ 3 ≤ lineStartRun fc (c :: rest) := fun h => hcond ⟨ha, h⟩
          rw [ha]
          simp only [if_true, List.singleton_append, qualifyingBound_cons, if_neg hr]
        · rw [Bool.not_eq_true] at ha
          rw [ha]
          simp only [Bool.false_eq_true, if_false, List.nil_append]

lemma fenceSizeScan_eq (fc : Char) (code : List Char) :
    fenceSizeScan fc code = max 3 (qualifyingBound (anchoredRuns fc code true)) :=
  fenceScanAux_eq fc code.length code true 3 (Nat.le_refl _) (Nat.le_refl _)

lemma mem_le_foldr_max (rs : List Nat) (r : Nat) (h : r ∈ rs) :
    r ≤ rs.foldr max 0 := by
  induction rs with
  | nil => cases h
  | cons a t ih =>
    rw [List.foldr_cons]
    rcases List.mem_cons.mp h with h' | h'
    · rw [h']
      exact Nat.le_max_left _ _
    · exact Nat.le_trans (ih h') (Nat.le_max_right a _)

lemma foldr_max_attained (rs : List Nat) :
    rs.foldr max 0 = 0 ∨ rs.foldr max 0 ∈ rs := by
  induction rs with
  | nil => exact Or.inl rfl
  | cons a t ih =>
    rw [List.foldr_cons]
    rcases ih with h0 | hmem
    · rw [h0, Nat.max_zero]
      exact Or.inr (List.mem_cons_self a t)
    · rcases max_choice a (t.foldr max 0) with h | h
      · rw [h]; exact Or.inr (List.mem_cons_self a t)
      · rw [h]; exact Or.inr (List.mem_cons_of_mem a hmem)

lemma qualifying_le_qualifyingBound (rs : List Nat) (r : Nat)
    (hm : r ∈ rs) (h3 : 3 ≤ r) : r + 1 ≤ qualifyingBound rs := by
  induction rs with
  | nil => cases hm
  | cons a t ih =>
    rw [qualifyingBound, List.foldr_cons]
    rcases List.mem_cons.mp hm with h' | h'
    · subst h'
      rw [if_pos h3]
      exact Nat.le_max_left _ _
    · by_cases ha : 3 ≤ a
      · rw [if_pos ha]
        exact Nat.le_trans (ih h') (Nat.le_max_right _ _)
      · rw [if_neg ha]
        exact ih h'

lemma qualifyingBound_le (rs : List Nat) :
    qualifyingBound rs ≤ 1 + rs.foldr max 0 := by
  induction rs with
  | nil => simp [qualifyingBound]
  | cons a t ih =>
    rw [qualifyingBound, List.foldr_cons, List.foldr_cons]
    by_cases ha : 3 ≤ a
    · rw [if_pos ha]
      refine Nat.max_le.mpr ⟨?_, ?_⟩
      · omega
      · exact Nat.le_trans ih (by omega)
    · rw [if_neg ha]
      exact Nat.le_trans ih (by omega)

lemma qualifyingBound_eq_zero (rs : List Nat) (h : ∀ r ∈ rs, r < 3) :
    qualifyingBound rs = 0 := by
  induction rs with
  | nil => rfl
  | cons a t ih =>
    rw [qualifyingBound, List.foldr_cons]
    have ha : ¬ 3 ≤ a := Nat.not_le.mpr (h a (List.mem_cons_self a t))
    rw [if_neg ha]
    exact ih fun r hr => h r (List.mem_cons_of_mem a hr)

/-- **C3**: with codeBlockStyle fenced, the emitted opening and closing
fences are the first character of the configured fence string repeated `L`
times, where `L = 3` when no line of the code content starts with a run of
3 or more fence characters, and otherwise `L` is 1 plus the longest
fence-character run at the start of any line — a line start being the
start of the string or the position after any LineTerminator (LF, CR,
U+2028, U+2029), as the multiline anchor sees it; the fence is strictly
longer than every line-start fence-character run in the content. -/
theorem fencedCodeBlock_fence_escalation (fence language code : List Char) :
    ((∀ r ∈ anchoredRuns (fence.headD backtickChar) code true, r < 3) →
        fenceSizeScan (fence.headD backtickChar) code = 3)
    ∧ ((∃ r ∈ anchoredRuns (fence.headD backtickChar) code true, 3 ≤ r) →
        fenceSizeScan (fence.headD backtickChar) code
          = 1 + (anchoredRuns (fence.headD backtickChar) code true).foldr max 0)
    ∧ (∀ r ∈ anchoredRuns (fence.headD backtickChar) code true,
        r < fenceSizeScan (fence.headD backtickChar) code)
    ∧ fencedCodeBlockReplacement fence language code
        = '\n' :: '\n' ::
            (List.replicate (fenceSizeScan (fence.headD backtickChar) code)
                (fence.headD backtickChar)
              ++ language ++ '\n' ::
              (stripOneTrailingNewline code ++ '\n' ::
                (List.replicate (fenceSizeScan (fence.headD backtickChar) code)
                    (fence.headD backtickChar)
                  ++ ['\n', '\n']))) := by
  set fc := fence.headD backtickChar with hfc
  set rs := anchoredRuns fc code true with hrs
  refine ⟨?_, ?_, ?_, rfl⟩
  · intro hall
    rw [fenceSizeScan_eq, ← hrs, qualifyingBound_eq_zero rs hall]
    exact Nat.max_zero 3
  · rintro ⟨r, hm, h3⟩
    rw [fenceSizeScan_eq, ← hrs]
    have hM : 3 ≤ rs.foldr max 0 := Nat.le_trans h3 (mem_le_foldr_max rs r hm)
    have hMem : rs.foldr max 0 ∈ rs := by
      rcases foldr_max_attained rs with h0 | h
      · omega
      · exact h
    have hub : qualifyingBound rs ≤ 1 + rs.foldr max 0 := qualifyingBound_le rs
    have hlb : rs.foldr max 0 + 1 ≤ qualifyingBound rs :=
      qualifying_le_qualifyingBound rs _ hMem hM
    omega
  · intro r hm
    rw [fenceSizeScan_eq, ← hrs]
    by_cases h3 : 3 ≤ r
    · have := qualifying_le_qualifyingBound rs r hm h3
      omega
    · omega

/-- Witness for C3: the code content `x` CR ```` ` ```` ` ```` ` ```` `
(a carriage return, then a line of four backticks) has an anchored run of
length 4 after the CR, so the default backtick fence escalates to
length 5. -/
theorem fencedCodeBlock_fence_escalation_witness :
    fenceSizeScan (([] : List Char).headD backtickChar)
        ('x' :: '\r' :: backtickChar :: backtickChar :: backtickChar :: backtickChar :: [])
      = 1 + ((anchoredRuns (([] : List Char).headD backtickChar)
          ('x' :: '\r' :: backtickChar :: backtickChar :: backtickChar :: backtickChar :: [])
          true).foldr max 0) :=
  (fencedCodeBlock_fence_escalation [] []
    ('x' :: '\r' :: backtickChar :: backtickChar :: backtickChar :: backtickChar :: [])).2.1
    (by decide)

/-! ## default-rules.ts : inline code -/

/-- A global single-character substitution `/X/g → '\X'`: used for the
backslash, `*`, `_`, backtick, `[` and `]` entries. -/
def escapeGlobalChar (target : Char) : List Char → List Char
  | [] => []
  | c :: rest =>
    if c == target then '\\' :: c :: escapeGlobalChar target rest
    else c :: escapeGlobalChar target rest

/-- The anchored dash entry: regex caret dash (global), replacement
backslash-dash. -/
def escapeLeadingDash (s : List Char) : List Char :=
  if s.head? = some '-' then '\\' :: s else s

/-- `/^\+ /g → '\+ '`. -/
def escapeLeadingPlusSpace (s : List Char) : List Char :=
  if s.head? = some '+' ∧ (s.drop 1).head? = some ' ' then '\\' :: s else s

/-- `/^(=+)/g → '\$1'`: the captured run is re-emitted unchanged, so the
effect is a prepended backslash when the string starts with an equals. -/
def escapeLeadingEquals (s : List Char) : List Char :=
  if s.head? = some '=' then '\\' :: s else s

/-- `/^(#{1,6}) /g → '\$1 '`: the leading hash run (which must have length
1..6 and be followed by a space — a longer run cannot match, because the
character after at most six hashes would again be a hash) is re-emitted
after a backslash. -/
def escapeLeadingHashes (s : List Char) : List Char :=
  let k := (s.takeWhile (fun c => c == '#')).length
  if 1 ≤ k ∧ k ≤ 6 ∧ (s.drop k).head? = some ' ' then '\\' :: s else s

/-- `/^~~~/g → '\~~~'`. -/
def escapeLeadingTildes (s : List Char) : List Char :=
  if s.take 3 = ['~', '~', '~'] then '\\' :: s else s

/-- `/^>/g → '\>'`. -/
def escapeLeadingGt (s : List Char) : List Char :=
  if s.head? = some '>' then '\\' :: s else s

/-- `/^(\d+)\. /g → '$1\. '`: a leading digit run followed by a dot and a
space has its dot backslash-escaped. -/
def escapeLeadingOrdinal (s : List Char) : List Char :=
  let k := (s.takeWhile (fun c => c.isDigit)).length
  if 1 ≤ k ∧ (s.drop k).head? = some '.' ∧ (s.drop (k + 1)).head? = some ' ' then
    s.take k ++ '\\' :: '.' :: ' ' :: s.drop (k + 2)
  else s

/-- `/<([^>]*)>/g → '\<$1\>'`: every span from a `<` to the next `>` has
both angle brackets escaped and the inner content preserved; a `<` with no
later `>` is left alone. The fuel argument (instantiated with the string
length, which bounds the number of scanning steps) makes the recursion
structural. -/
def escapeAnglesAux : Nat → List Char → List Char
  | 0, s => s
  | _ + 1, [] => []
  | fuel + 1, c :: rest =>
    if c == '<' then
      if rest.any (fun x => x == '>') then
        '\\' :: '<' :: (rest.takeWhile (fun x => !(x == '>'))
          ++ '\\' :: '>' :: escapeAnglesAux fuel ((rest.dropWhile (fun x => !(x == '>'))).tail))
      else '<' :: escapeAnglesAux fuel rest
    else c :: escapeAnglesAux fuel rest

/-- The angle-bracket substitution of the `escapes` table. -/
def escapeAngles (s : List Char) : List Char :=
  escapeAnglesAux s.length s

/-- The `escapes` array of index.ts, in source order. -/
def escapeSubstitutions : List (List Char → List Char) :=
  [escapeGlobalChar '\\',
   escapeGlobalChar '*',
   escapeGlobalChar '_',
   escapeLeadingDash,
   escapeLeadingPlusSpace,
   escapeLeadingEquals,
   escapeLeadingHashes,
   escapeGlobalChar backtickChar,
   escapeLeadingTildes,
   escapeGlobalChar '[',
   escapeGlobalChar ']',
   escapeAngles,
   escapeLeadingGt,
   escapeLeadingOrdinal]

/-- `Turnish.escape`: `escapes.reduce((acc, e) => acc.replace(...), s)`. -/
def escape (s : List Char) : List Char :=
  escapeSubstitutions.foldl (fun accumulator esc => esc accumulator) s

/-- **C6 counterexample**: in the text `a\n- b` the `- ` at the start of
the second line is NOT escaped (the anchored regexes carry no `m` flag and
match at the start of the whole string only), although the very same
pattern at the start of the whole string is. -/
theorem escape_per_line_counterexample :
    escape ('a' :: '\n' :: '-' :: ' ' :: 'b' :: [])
        = 'a' :: '\n' :: '-' :: ' ' :: 'b' :: []
      ∧ escape ('-' :: ' ' :: 'b' :: []) = '\\' :: '-' :: ' ' :: 'b' :: [] := by
  decide

lemma escapeGlobalChar_eq_self (t : Char) :
    ∀ s : List Char, (∀ c ∈ s, ¬ c = t) → escapeGlobalChar t s = s := by
  intro s
  induction s with
  | nil => intro _; rfl
  | cons c rest ih =>
    intro h
    rw [escapeGlobalChar]
    have hc : ¬ (c == t) = true := by
      simp only [beq_iff_eq]
      exact h c (List.mem_cons_self c rest)
    rw [if_neg hc, ih fun x hx => h x (List.mem_cons_of_mem c hx)]

lemma escapeAnglesAux_eq_self :
    ∀ (fuel : Nat) (s : List Char), (∀ c ∈ s, ¬ c = '<') →
      escapeAnglesAux fuel s = s := by
  intro fuel
  induction fuel with
  | zero => intro s _; rfl
  | succ f ih =>
    intro s h
    match s with
    | [] => rfl
    | c :: rest =>
      have hc : ¬ (c == '<') = true := by
        simp only [beq_iff_eq]
        exact h c (List.mem_cons_self c rest)
      have hrest : ∀ x ∈ rest, ¬ x = '<' := fun x hx => h x (List.mem_cons_of_mem c hx)
      rw [escapeAnglesAux, if_neg hc, ih rest hrest]

lemma escapeAngles_eq_self (s : List Char) (h : ∀ c ∈ s, ¬ c = '<') :
    escapeAngles s = s :=
  escapeAnglesAux_eq_self s.length s h

lemma notMemList_ne {c t : Char} {l : List Char} (h : c ∉ l) (ht : t ∈ l) :
    ¬ c = t := fun he => h (he ▸ ht)

lemma escapeLeadingDash_cons (c : Char) (rest : List Char) (h : ¬ c = '-') :
    escapeLeadingDash (c :: rest) = c :: rest := by
  simp [escapeLeadingDash, h]

lemma escapeLeadingPlusSpace_cons (c : Char) (rest : List Char) (h : ¬ c = '+') :
    escapeLeadingPlusSpace (c :: rest) = c :: rest := by
  simp [escapeLeadingPlusSpace, h]

lemma escapeLeadingEquals_cons (c : Char) (rest : List Char) (h : ¬ c = '=') :
    escapeLeadingEquals (c :: rest) = c :: rest := by
  simp [escapeLeadingEquals, h]

lemma escapeLeadingHashes_cons (c : Char) (rest : List Char) (h : ¬ c = '#') :
    escapeLeadingHashes (c :: rest) = c :: rest := by
  simp only [escapeLeadingHashes]
  rw [List.takeWhile_cons_of_neg (by simpa using h)]
  simp

lemma escapeLeadingTildes_cons (c : Char) (rest : List Char) (h : ¬ c = '~') :
    escapeLeadingTildes (c :: rest) = c :: rest := by
  simp only [escapeLeadingTildes, List.take_succ_cons]
  rw [if_neg]
  intro he
  exact h (List.cons_eq_cons.mp he).1

lemma escapeLeadingGt_cons (c : Char) (rest : List Char) (h : ¬ c = '>') :
    escapeLeadingGt (c :: rest) = c :: rest := by
  simp [escapeLeadingGt, h]

lemma escapeLeadingOrdinal_cons (c : Char) (rest : List Char) (h : c.isDigit = false) :
    escapeLeadingOrdinal (c :: rest) = c :: rest := by
  simp only [escapeLeadingOrdinal]
  rw [List.takeWhile_cons_of_neg (by simpa using h)]
  simp

/-- **C6 (amended)**: the escaping substitutions are applied sequentially
in the fixed documented order starting with backslash, but each
line-anchored pattern is evaluated against the start of the WHOLE string
only (the regexes carry no multiline flag): a qualifying pattern at the
start of a later line of a multi-line text is left unescaped, while the
same pattern at the start of the string is escaped. `c₀` ranges over
ordinary first characters (not themselves subject to any substitution) and
`s` over texts free of the globally escaped characters. -/
theorem escape_anchored_at_string_start_only
    (c₀ : Char) (s : List Char)
    (hc : c₀ ∉ ['\\', '*', '_', backtickChar, '[', ']', '<', '>',
                '-', '+', '=', '#', '~'] ∧ c₀.isDigit = false)
    (hs : ∀ c ∈ s, c ∉ ['\\', '*', '_', backtickChar, '[', ']', '<', '>']) :
    (∀ t : List Char, escape t =
        escapeLeadingOrdinal (escapeLeadingGt (escapeAngles (escapeGlobalChar ']'
          (escapeGlobalChar '[' (escapeLeadingTildes (escapeGlobalChar backtickChar
            (escapeLeadingHashes (escapeLeadingEquals (escapeLeadingPlusSpace
              (escapeLeadingDash (escapeGlobalChar '_' (escapeGlobalChar '*'
                (escapeGlobalChar '\\' t))))))))))))))
      ∧ escape (c₀ :: '\n' :: s) = c₀ :: '\n' :: s
      ∧ escape ('-' :: s) = '\\' :: '-' :: s := by
  have hcomp : ∀ t : List Char, escape t =
      escapeLeadingOrdinal (escapeLeadingGt (escapeAngles (escapeGlobalChar ']'
        (escapeGlobalChar '[' (escapeLeadingTildes (escapeGlobalChar backtickChar
          (escapeLeadingHashes (escapeLeadingEquals (escapeLeadingPlusSpace
            (escapeLeadingDash (escapeGlobalChar '_' (escapeGlobalChar '*'
              (escapeGlobalChar '\\' t))))))))))))) := by
    intro t
    simp only [escape, escapeSubstitutions, List.foldl]
  refine ⟨hcomp, ?_, ?_⟩
  · -- the anchored patterns never look past the first character of the string
    have hall8 : ∀ c ∈ c₀ :: '\n' :: s,
        c ∉ ['\\', '*', '_', backtickChar, '[', ']', '<', '>'] := by
      intro c hcmem
      rcases List.mem_cons.mp hcmem with rfl | h2
      · intro hin
        apply hc.1
        simp only [List.mem_cons, List.not_mem_nil, or_false] at hin ⊢
        tauto
      · rcases List.mem_cons.mp h2 with rfl | h3
        · decide
        · exact hs c h3
    have hglob : ∀ t ∈ (['\\', '*', '_', backtickChar, '[', ']'] : List Char),
        escapeGlobalChar t (c₀ :: '\n' :: s) = c₀ :: '\n' :: s := by
      intro t ht
      refine escapeGlobalChar_eq_self t _ fun c hm => notMemList_ne (hall8 c hm) ?_
      simp only [List.mem_cons, List.not_mem_nil, or_false] at ht ⊢
      tauto
    have hangle : escapeAngles (c₀ :: '\n' :: s) = c₀ :: '\n' :: s := by
      refine escapeAngles_eq_self _ fun c hm => notMemList_ne (hall8 c hm) ?_
      simp
    rw [hcomp,
      hglob '\\' (by simp), hglob '*' (by simp), hglob '_' (by simp),
      escapeLeadingDash_cons c₀ _ (notMemList_ne hc.1 (by simp)),
      escapeLeadingPlusSpace_cons c₀ _ (notMemList_ne hc.1 (by simp)),
      escapeLeadingEquals_cons c₀ _ (notMemList_ne hc.1 (by simp)),
      escapeLeadingHashes_cons c₀ _ (notMemList_ne hc.1 (by simp)),
      hglob backtickChar (by simp),
      escapeLeadingTildes_cons c₀ _ (notMemList_ne hc.1 (by simp)),
      hglob '[' (by simp), hglob ']' (by simp), hangle,
      escapeLeadingGt_cons c₀ _ (notMemList_ne hc.1 (by simp)),
      escapeLeadingOrdinal_cons c₀ _ hc.2]
  · -- the same pattern at the start of the whole string IS escaped
    have hu : ∀ (t : Char), (t = '\\' ∨ t = '*' ∨ t = '_') →
        ∀ c ∈ '-' :: s, ¬ c = t := by
      intro t ht c hm
      rcases List.mem_cons.mp hm with rfl | h2
      · rcases ht with rfl | rfl | rfl <;> decide
      · intro he
        subst he
        rcases ht with rfl | rfl | rfl <;> exact hs _ h2 (by simp)
    have hvne : ∀ (t : Char), (t = backtickChar ∨ t = '[' ∨ t = ']' ∨ t = '<') →
        ∀ c ∈ '\\' :: '-' :: s, ¬ c = t := by
      intro t ht c hm
      rcases List.mem_cons.mp hm with rfl | h2
      · rcases ht with rfl | rfl | rfl | rfl <;> decide
      · rcases List.mem_cons.mp h2 with rfl | h3
        · rcases ht with rfl | rfl | rfl | rfl <;> decide
        · intro he
          subst he
          rcases ht with rfl | rfl | rfl | rfl <;> exact hs _ h3 (by simp)
    rw [hcomp,
      escapeGlobalChar_eq_self '\\' _ (hu '\\' (Or.inl rfl)),
      escapeGlobalChar_eq_self '*' _ (hu '*' (Or.inr (Or.inl rfl))),
      escapeGlobalChar_eq_self '_' _ (hu '_' (Or.inr (Or.inr rfl))),
      show escapeLeadingDash ('-' :: s) = '\\' :: '-' :: s by simp [escapeLeadingDash],
      escapeLeadingPlusSpace_cons '\\' _ (by decide),
      escapeLeadingEquals_cons '\\' _ (by decide),
      escapeLeadingHashes_cons '\\' _ (by decide),
      escapeGlobalChar_eq_self backtickChar _ (hvne backtickChar (Or.inl rfl)),
      escapeLeadingTildes_cons '\\' _ (by decide),
      escapeGlobalChar_eq_self '[' _ (hvne '[' (Or.inr (Or.inl rfl))),
      escapeGlobalChar_eq_self ']' _ (hvne ']' (Or.inr (Or.inr (Or.inl rfl)))),
      escapeAngles_eq_self _ (hvne '<' (Or.inr (Or.inr (Or.inr rfl)))),
      escapeLeadingGt_cons '\\' _ (by decide),
      escapeLeadingOrdinal_cons '\\' _ (by decide)]

/-- Witness for the amended C6: the text `q\n- b` (ordinary first
character, then a newline, then a line starting with a dash) passes
through `escape` unchanged. -/
theorem escape_anchored_at_string_start_only_witness :
    escape ('q' :: '\n' :: '-' :: ' ' :: 'b' :: [])
      = 'q' :: '\n' :: '-' :: ' ' :: 'b' :: [] :=
  (escape_anchored_at_string_start_only 'q' ('-' :: ' ' :: 'b' :: [])
    (by decide) (by decide)).2.1

/-! ## index.ts : postProcess trimming -/

/-- The JavaScript regex class `\s`: space, tab, LF, VT, FF, CR, NBSP and
the Unicode space separators the engine can meet. -/
def isJsWhitespace (c : Char) : Bool :=
  c == ' ' || c == '\t' || c == '\n' || c == '\r' ||
  c == Char.ofNat 11 || c == Char.ofNat 12 || c == Char.ofNat 160 ||
  c == Char.ofNat 0x1680 || (Char.ofNat 0x2000 ≤ c && c ≤ Char.ofNat 0x200a) ||
  c == Char.ofNat 0x2028 || c == Char.ofNat 0x2029 || c == Char.ofNat 0x202f ||
  c == Char.ofNat 0x205f || c == Char.ofNat 0x3000 || c == Char.ofNat 0xfeff

/-- The class `[\t\r\n]` of the LEADING trim regex of
`Turnish.postProcess`: tab, carriage return, newline — the space character
is NOT in this class. -/
def isLeadingTrimChar (c : Char) : Bool :=
  c == '\t' || c == '\r' || c == '\n'

/-- The class `[\t\r\n\s]` of the TRAILING trim regex of
`Turnish.postProcess`. -/
def isTrailingTrimChar (c : Char) : Bool :=
  c == '\t' || c == '\r' || c == '\n' || isJsWhitespace c

/-- The two final `replace` calls of `Turnish.postProcess`: drop the
maximal leading `[\t\r\n]` run, then the maximal trailing
`[\t\r\n\s]` run. -/
def postProcessTrim (output : List Char) : List Char :=
  ((output.dropWhile isLeadingTrimChar).reverse.dropWhile isTrailingTrimChar).reverse

/-- `Turnish.postProcess`: joins each rule's `append` output (in
registration order, modelled by the list of append results) onto the
output, then trims. -/
def postProcess (appendResults : List (List Char)) (output : List Char) : List Char :=
  postProcessTrim (appendResults.foldl join output)

/-- **C8 counterexample**: the conversion output `" a"` (leading space)
is returned by post-processing unchanged — the final string BEGINS with a
space character, because the leading trim class is `[\t\r\n]` and does
not contain the space. -/
theorem postProcess_leading_space_counterexample :
    postProcess [] (' ' :: 'a' :: []) = ' ' :: 'a' :: []
      ∧ (postProcess [] (' ' :: 'a' :: [])).head? = some ' ' := by
  decide

lemma head?_trimTrailing (p : Char → Bool) (u : List Char) (c : Char)
    (h : ((u.reverse.dropWhile p).reverse).head? = some c) : u.head? = some c := by
  obtain ⟨t, ht⟩ := List.dropWhile_suffix (l := u.reverse) p
  have h2 := congrArg List.reverse ht
  rw [List.reverse_append, List.reverse_reverse] at h2
  rw [← h2, List.head?_append, h]
  rfl

/-- **C8 (amended)**: after appending all deferred rule output, the
post-processing step strips the entire leading run of tab/CR/newline
characters (NOT spaces) and the entire trailing run of tab/CR/newline and
JavaScript-whitespace characters (including spaces); hence the final
string never starts with a tab, carriage return or newline and never ends
with any such whitespace — but it can begin with a space character. -/
theorem postProcess_trims_output (appendResults : List (List Char)) (output : List Char) :
    postProcess appendResults output = postProcessTrim (appendResults.foldl join output)
      ∧ (∀ c, (postProcess appendResults output).head? = some c →
          isLeadingTrimChar c = false)
      ∧ (∀ c, (postProcess appendResults output).getLast? = some c →
          isTrailingTrimChar c = false) := by
  refine ⟨rfl, ?_, ?_⟩
  · intro c h
    unfold postProcess postProcessTrim at h
    exact head_dropWhile_false isLeadingTrimChar _ c
      (head?_trimTrailing isTrailingTrimChar _ c h)
  · intro c h
    unfold postProcess postProcessTrim at h
    rw [List.getLast?_reverse] at h
    exact head_dropWhile_false isTrailingTrimChar _ c h

/-- Witness for the amended C8 at one append result and the output
`"\n a \n"`: the trimmed head is the space character (not a leading-trim
character). -/
theorem postProcess_trims_output_witness :
    isLeadingTrimChar ' ' = false :=
  (postProcess_trims_output [['b']] ('\n' :: ' ' :: 'a' :: ' ' :: '\n' :: [])).2.1
    ' ' (by decide)

/-! ## default-rules.ts : emphasis and strong -/

/-- JavaScript `String.prototype.trim`: removes the whitespace class from
both ends. -/
def jsTrim (s : List Char) : List Char :=
  ((s.dropWhile isJsWhitespace).reverse.dropWhile isJsWhitespace).reverse

/-- `defaultRules.emphasis.replacement`: trims the content, returns the
empty string when nothing remains, otherwise wraps the trimmed content in
`options.emDelimiter` on both sides. -/
def emphasisReplacement (emDelimiter content : List Char) : List Char :=
  let c := jsTrim content
  if c = [] then [] else emDelimiter ++ c ++ emDelimiter

/-- `defaultRules.strong.replacement`: same shape with
`options.strongDelimiter`. -/
def strongReplacement (strongDelimiter content : List Char) : List Char :=
  let c := jsTrim content
  if c = [] then [] else strongDelimiter ++ c ++ strongDelimiter

/-- **C9**: for every emphasis (em/i) and strong (strong/b) element whose
converted child content trims to the empty string, the replacement is the
empty string — no delimiter characters at all; otherwise it is the trimmed
content wrapped in the configured delimiter on both sides. -/
theorem emphasis_strong_empty_content (emD strongD content : List Char) :
    (jsTrim content = [] →
        emphasisReplacement emD content = [] ∧ strongReplacement strongD content = [])
      ∧ (jsTrim content ≠ [] →
          emphasisReplacement emD content = emD ++ jsTrim content ++ emD
            ∧ strongReplacement strongD content = strongD ++ jsTrim content ++ strongD) := by
  constructor <;> intro h <;>
    constructor <;> simp [emphasisReplacement, strongReplacement, h]

/-- Witness for C9: whitespace-only emphasis content produces the empty
string under the default delimiters. -/
theorem emphasis_strong_empty_content_witness :
    emphasisReplacement ['*'] (' ' :: '\n' :: ' ' :: []) = []
      ∧ strongReplacement ['*', '*'] (' ' :: '\n' :: ' ' :: []) = [] :=
  (emphasis_strong_empty_content ['*'] ['*', '*'] (' ' :: '\n' :: ' ' :: [])).1
    (by decide)

/-! ## index.ts : render input validation -/

/-- A DOM-like node as `canConvert` sees it: its `nodeType` and its string
coercion (used when the value is interpolated into the error message). -/
structure NodeInput where
  nodeType : Nat
  display : List Char

/-- The universe of JavaScript values a caller can pass to `render`:
strings, objects exposing a `nodeType`, `null`, `undefined`, and any other
value (carrying its string coercion). -/
inductive RenderInput where
  | str : List Char → RenderInput
  | node : NodeInput → RenderInput
  | nullV : RenderInput
  | undefinedV : RenderInput
  | other : List Char → RenderInput

/-- `canConvert` from index.ts: `input != null && (typeof input ===
'string' || (input.nodeType && (input.nodeType === 1 || input.nodeType ===
9 || input.nodeType === 11)))`. A zero `nodeType` is falsy; values without
a `nodeType` property fail the truthiness test. -/
def canConvert : RenderInput → Bool
  | .str _ => true
  | .node n => n.nodeType != 0
      && (n.nodeType == 1 || n.nodeType == 9 || n.nodeType == 11)
  | .nullV => false
  | .undefinedV => false
  | .other _ => false

/-- The string coercion JavaScript applies to `input` in
`input + ' is not a string, ...'`. -/
def displayString : RenderInput → List Char
  | .str s => s
  | .node n => n.display
  | .nullV => "null".toList
  | .undefinedV => "undefined".toList
  | .other d => d

/-- The `TypeError` message of `Turnish.render`. -/
def typeErrorMessage (input : RenderInput) : List Char :=
  displayString input ++ " is not a string, or an element/document/fragment node.".toList

/-- Whether the input is strictly equal (`===`) to the empty string. -/
def isEmptyStringInput : RenderInput → Bool
  | .str [] => true
  | _ => false

/-- `Turnish.render`: throw a `TypeError` naming the offending value when
`canConvert` fails (modelled as `Except.error`, so no output is produced),
short-circuit the empty string, and otherwise run the conversion pipeline
(`process` on the wrapped root followed by `postProcess`), abstracted here
as the function `convert`. -/
def render (convert : RenderInput → List Char) (input : RenderInput) :
    Except (List Char) (List Char) :=
  if ¬ canConvert input then .error (typeErrorMessage input)
  else if isEmptyStringInput input then .ok []
  else .ok (convert input)

/-- **C7**: every input that is neither a string nor a node of
element/document/fragment type — including `null` and `undefined` — makes
`render` fail immediately with a type error whose message names the
offending value, producing no partial output; the empty-string input
returns the empty string without invoking the conversion pipeline (the
result does not depend on the pipeline at all). -/
theorem render_input_validation
    (convert₁ convert₂ : RenderInput → List Char) (input : RenderInput) :
    (canConvert input = false →
        render convert₁ input = .error (typeErrorMessage input))
      ∧ canConvert RenderInput.nullV = false
      ∧ canConvert RenderInput.undefinedV = false
      ∧ (∀ d, canConvert (RenderInput.other d) = false)
      ∧ (∀ n : NodeInput, canConvert (RenderInput.node n)
          = (decide (n.nodeType = 1) || decide (n.nodeType = 9) || decide (n.nodeType = 11)))
      ∧ render convert₁ (.str []) = .ok []
      ∧ render convert₂ (.str []) = .ok [] := by
  refine ⟨?_, rfl, rfl, fun d => rfl, ?_, rfl, rfl⟩
  · intro h
    unfold render
    rw [h]
    rfl
  · intro n
    show (n.nodeType != 0 && (n.nodeType == 1 || n.nodeType == 9 || n.nodeType == 11)) = _
    by_cases h0 : n.nodeType = 0
    · simp [h0]
    · by_cases h1 : n.nodeType = 1 <;> by_cases h9 : n.nodeType = 9 <;>
        by_cases h11 : n.nodeType = 11 <;> simp [h0, h1, h9, h11]

/-- Witness for C7: a `null` input produces exactly the documented type
error. -/
theorem render_input_validation_witness :
    render (fun _ => []) RenderInput.nullV
      = .error (typeErrorMessage RenderInput.nullV) :=
  (render_input_validation (fun _ => []) (fun _ => []) RenderInput.nullV).1 rfl

/-! ## default-rules.ts : the reference-link rule

The rule owns accumulator state (`references`, `urlReferenceIdMap`);
here that state is passed explicitly through each replacement call and
through the `append` flush. -/

/-- `sanitizeWhitespace` from utilities.ts:
`string.replace(/(\n+\s*)+/g, '\n')`. A match of that regex starts at a
newline and greedily covers the rest of the maximal whitespace run, and is
replaced by a single newline; the fuel (instantiated with the string
length) makes the scan structural. -/
def sanitizeWhitespaceAux : Nat → List Char → List Char
  | 0, s => s
  | _ + 1, [] => []
  | fuel + 1, c :: rest =>
    if c == '\n' then '\n' :: sanitizeWhitespaceAux fuel (rest.dropWhile isJsWhitespace)
    else c :: sanitizeWhitespaceAux fuel rest

/-- `sanitizeWhitespace`, with the empty-string falsiness guard. -/
def sanitizeWhitespace (s : List Char) : List Char :=
  sanitizeWhitespaceAux s.length s

/-- Helper for `sanitizedLinkTitle`: `replace(/[\t\r\n]+/g, ' ')` — every
maximal run of tab/CR/LF becomes one space. -/
def collapseTabCrLfAux : Nat → List Char → List Char
  | 0, s => s
  | _ + 1, [] => []
  | fuel + 1, c :: rest =>
    if c == '\t' || c == '\r' || c == '\n' then
      ' ' :: collapseTabCrLfAux fuel
        (rest.dropWhile (fun x => x == '\t' || x == '\r' || x == '\n'))
    else c :: collapseTabCrLfAux fuel rest

/-- `sanitizedLinkTitle` from utilities.ts. -/
def sanitizedLinkTitle (content : List Char) : List Char :=
  let sanitized := sanitizeWhitespace content
  collapseTabCrLfAux sanitized.length sanitized

/-- Decimal digits of a number, as JavaScript renders an `id` into
`'[' + id + ']'`. -/
def natToChars (n : Nat) : List Char :=
  Nat.toDigits 10 n

/-- An anchor as the reference-link rule reads it: its `href` attribute
and its `title` attribute (`[]` models both a missing and an empty title,
which are equally falsy). -/
structure AnchorNode where
  href : List Char
  titleAttr : List Char

/-- `options.linkReferenceStyle`. -/
inductive LinkReferenceStyle where
  | full
  | collapsed
  | shortcut
deriving DecidableEq

/-- `options.linkReferenceDeduplication`. -/
inductive LinkReferenceDeduplication where
  | none
  | full
deriving DecidableEq

/-- The accumulator state owned by the reference-link rule. -/
structure RefState where
  references : List (List Char)
  urlReferenceIdMap : List (List Char × Nat)
deriving DecidableEq

/-- The state both fields start from (and return to after a flush). -/
def emptyRefState : RefState := ⟨[], []⟩

/-- JavaScript `Map.prototype.get` on the insertion-ordered map. -/
def mapGet (m : List (List Char × Nat)) (k : List Char) : Option Nat :=
  (m.find? (fun p => p.1 == k)).map (fun p => p.2)

/-- JavaScript `Map.prototype.has`. -/
def mapHas (m : List (List Char × Nat)) (k : List Char) : Bool :=
  m.any (fun p => p.1 == k)

/-- JavaScript `Map.prototype.set`: overwrite the existing binding in
place, or append a new one. -/
def mapSet : List (List Char × Nat) → List Char → Nat → List (List Char × Nat)
  | [], k, v => [(k, v)]
  | (k', v') :: rest, k, v =>
    if k' == k then (k', v) :: rest else (k', v') :: mapSet rest k v

/-- Truthiness of `existingKey` (a number or `undefined`): zero would be
falsy, but ids are always at least 1. -/
def truthyNumber : Option Nat → Bool
  | some n => n != 0
  | none => false

/-- The block after the `switch` in `referenceLinkRule.replacement`, run
only for the collapsed/shortcut styles: with full deduplication the
reference is recorded once per key (marking the key in the id map),
otherwise it is always pushed. -/
def nonFullStyleRecord (dedup : LinkReferenceDeduplication)
    (referenceKey reference : List Char) (st : RefState) : RefState :=
  if dedup = LinkReferenceDeduplication.full then
    if ¬ mapHas st.urlReferenceIdMap referenceKey then
      ⟨st.references ++ [reference], mapSet st.urlReferenceIdMap referenceKey 1⟩
    else st
  else ⟨st.references ++ [reference], st.urlReferenceIdMap⟩

/-- `referenceLinkRule.replacement`: computes the inline marker for one
anchor and the updated accumulator state. `content` is the converted child
content. -/
def referenceLinkReplacement (style : LinkReferenceStyle)
    (dedup : LinkReferenceDeduplication) (content : List Char)
    (node : AnchorNode) (st : RefState) : List Char × RefState :=
  let href := node.href
  let title := if node.titleAttr = [] then []
    else ' ' :: '"' :: (sanitizedLinkTitle node.titleAttr ++ ['"'])
  let referenceKey := href ++ title
  match style with
  | .collapsed =>
    let replacement := '[' :: (content ++ [']', '[', ']'])
    let reference := '[' :: (content ++ ']' :: ':' :: ' ' :: referenceKey)
    (replacement, nonFullStyleRecord dedup referenceKey reference st)
  | .shortcut =>
    let replacement := '[' :: (content ++ [']'])
    let reference := '[' :: (content ++ ']' :: ':' :: ' ' :: referenceKey)
    (replacement, nonFullStyleRecord dedup referenceKey reference st)
  | .full =>
    let existingKey := mapGet st.urlReferenceIdMap referenceKey
    if dedup = LinkReferenceDeduplication.full ∧ truthyNumber existingKey then
      let id := existingKey.getD 0
      ('[' :: (content ++ ']' :: '[' :: (natToChars id ++ [']'])), st)
    else
      let id := st.references.length + 1
      let reference := '[' :: (natToChars id ++ ']' :: ':' :: ' ' :: (href ++ title))
      ('[' :: (content ++ ']' :: '[' :: (natToChars id ++ [']'])),
        ⟨st.references ++ [reference],
         mapSet st.urlReferenceIdMap referenceKey id⟩)

/-- `Array.prototype.join('\n')`. -/
def joinWithNewlines : List (List Char) → List Char
  | [] => []
  | [x] => x
  | x :: xs => x ++ '\n' :: joinWithNewlines xs

/-- `referenceLinkRule.append`: when any references were accumulated,
emit them once (blank-line padded) and reset both the list and the id
map; otherwise emit nothing and leave the state alone. -/
def referenceLinkAppend (st : RefState) : List Char × RefState :=
  if st.references.length ≠ 0 then
    ('\n' :: '\n' :: (joinWithNewlines st.references ++ ['\n', '\n']), emptyRefState)
  else ([], st)

/-- One render's traversal as the reference-link rule sees it: the anchors
in document order with their converted contents, threading the accumulator
state. -/
def processLinks (style : LinkReferenceStyle) (dedup : LinkReferenceDeduplication) :
    List (AnchorNode × List Char) → RefState → List (List Char) × RefState
  | [], st => ([], st)
  | (node, content) :: rest, st =>
    let r := referenceLinkReplacement style dedup content node st
    let rs := processLinks style dedup rest r.2
    (r.1 :: rs.1, rs.2)

/-- One COMPLETE render: process all anchors, then run the `append` flush
of post-processing. Yields the inline markers in document order, the
flushed reference block, and the rule state after the render. -/
def renderLinks (style : LinkReferenceStyle) (dedup : LinkReferenceDeduplication)
    (links : List (AnchorNode × List Char)) (st : RefState) :
    List (List Char) × List Char × RefState :=
  let p := processLinks style dedup links st
  let a := referenceLinkAppend p.2
  (p.1, a.1, a.2)

/-- **C4**: with linkStyle referenced, linkReferenceStyle full and
linkReferenceDeduplication full, a document whose anchors have hrefs
A, B, A (A ≠ B, no titles) yields inline markers `[..][1]`, `[..][2]`,
`[..][1]`, and the single end-of-render flush emits exactly two reference
definitions — id 1 for A and id 2 for B — leaving the accumulator empty. -/
theorem reference_full_dedup_A_B_A (A B c1 c2 c3 : List Char) (hAB : A ≠ B) :
    renderLinks LinkReferenceStyle.full LinkReferenceDeduplication.full
        [(⟨A, []⟩, c1), (⟨B, []⟩, c2), (⟨A, []⟩, c3)] emptyRefState
      = ([ '[' :: (c1 ++ [']', '[', '1', ']']),
           '[' :: (c2 ++ [']', '[', '2', ']']),
           '[' :: (c3 ++ [']', '[', '1', ']']) ],
         '\n' :: '\n' :: (('[' :: '1' :: ']' :: ':' :: ' ' :: A)
           ++ '\n' :: ('[' :: '2' :: ']' :: ':' :: ' ' :: B) ++ ['\n', '\n']),
         emptyRefState) := by
  have hab : (A == B) = false := beq_eq_false_iff_ne.mpr hAB
  have hba : (B == A) = false := beq_eq_false_iff_ne.mpr fun h => hAB h.symm
  have d1 : Nat.toDigits 10 1 = ['1'] := rfl
  have d2 : Nat.toDigits 10 2 = ['2'] := rfl
  simp [renderLinks, processLinks, referenceLinkReplacement, nonFullStyleRecord,
    mapGet, mapSet, mapHas, truthyNumber, emptyRefState, referenceLinkAppend,
    joinWithNewlines, natToChars, List.find?, hab, hba, d1, d2]

/-- Witness for C4 at hrefs `a`, `b` and empty link labels. -/
theorem reference_full_dedup_A_B_A_witness :
    renderLinks LinkReferenceStyle.full LinkReferenceDeduplication.full
        [(⟨['a'], []⟩, []), (⟨['b'], []⟩, []), (⟨['a'], []⟩, [])] emptyRefState
      = ([ '[' :: ([] ++ [']', '[', '1', ']']),
           '[' :: ([] ++ [']', '[', '2', ']']),
           '[' :: ([] ++ [']', '[', '1', ']']) ],
         '\n' :: '\n' :: (('[' :: '1' :: ']' :: ':' :: ' ' :: ['a'])
           ++ '\n' :: ('[' :: '2' :: ']' :: ':' :: ' ' :: ['b']) ++ ['\n', '\n']),
         emptyRefState) :=
  reference_full_dedup_A_B_A ['a'] ['b'] [] [] [] (by decide)

/-! ### C10: the accumulator is empty after every complete render -/

/-- The reference-accumulator invariant: the id map can only be nonempty
when the reference list is (every insertion into the map is paired with a
push onto the list). -/
def refStateSync (st : RefState) : Prop :=
  st.references = [] → st.urlReferenceIdMap = []

lemma referenceLinkReplacement_preserves_sync
    (style : LinkReferenceStyle) (dedup : LinkReferenceDeduplication)
    (content : List Char) (node : AnchorNode) (st : RefState)
    (h : refStateSync st) :
    refStateSync (referenceLinkReplacement style dedup content node st).2 := by
  cases style <;>
    (simp only [referenceLinkReplacement, nonFullStyleRecord]
     split_ifs <;> intro he <;> simp_all [refStateSync])

lemma processLinks_preserves_sync
    (style : LinkReferenceStyle) (dedup : LinkReferenceDeduplication) :
    ∀ (links : List (AnchorNode × List Char)) (st : RefState),
      refStateSync st → refStateSync (processLinks style dedup links st).2 := by
  intro links
  induction links with
  | nil => intro st h; exact h
  | cons l rest ih =>
    intro st h
    obtain ⟨node, content⟩ := l
    exact ih _ (referenceLinkReplacement_preserves_sync style dedup content node st h)

lemma referenceLinkAppend_state (st : RefState) (h : refStateSync st) :
    (referenceLinkAppend st).2 = emptyRefState := by
  unfold referenceLinkAppend
  split_ifs with hne
  · rfl
  · have hrefs : st.references = [] := by
      by_contra hc
      exact hne (by simpa using hc)
    have hmap := h hrefs
    show st = emptyRefState
    cases st
    simp_all [emptyRefState]

/-- **C10**: the reference-link rule's append hook empties both the
reference list and the href+title-to-id map whenever any references were
accumulated; consequently the accumulator is empty after every complete
render started from the instance's initial (empty) state, and a second
complete render — which starts from the first render's post-state — gives
output identical to a render from the fresh state (so two consecutive
renders of the same input with the same options agree). -/
theorem reference_append_clears_state_and_renders_deterministic
    (style : LinkReferenceStyle) (dedup : LinkReferenceDeduplication)
    (links links₂ : List (AnchorNode × List Char)) :
    (∀ st : RefState, st.references ≠ [] →
        referenceLinkAppend st
          = ('\n' :: '\n' :: (joinWithNewlines st.references ++ ['\n', '\n']),
             emptyRefState))
      ∧ (renderLinks style dedup links emptyRefState).2.2 = emptyRefState
      ∧ renderLinks style dedup links₂ ((renderLinks style dedup links emptyRefState).2.2)
          = renderLinks style dedup links₂ emptyRefState := by
  have hempty : (renderLinks style dedup links emptyRefState).2.2 = emptyRefState := by
    have hsync : refStateSync emptyRefState := fun _ => rfl
    exact referenceLinkAppend_state _
      (processLinks_preserves_sync style dedup links emptyRefState hsync)
  refine ⟨?_, hempty, by rw [hempty]⟩
  intro st hne
  unfold referenceLinkAppend
  rw [if_pos (by simpa using hne)]

/-- Witness for C10: flushing a one-entry accumulator emits the padded
reference block and resets the state. -/
theorem reference_append_clears_state_witness :
    referenceLinkAppend ⟨[['x']], [(['x'], 1)]⟩
      = ('\n' :: '\n' :: (joinWithNewlines [['x']] ++ ['\n', '\n']), emptyRefState) :=
  (reference_append_clears_state_and_renders_deterministic
      LinkReferenceStyle.full LinkReferenceDeduplication.full [] []).1
    ⟨[['x']], [(['x'], 1)]⟩ (by decide)

/-! ## rules.ts : the rule table and `Rules.forNode`

Replacement functions are abstracted by a type parameter `α`; a resolved
rule is modelled as its optional filter together with its replacement
(the singleton blank/retention/default rules carry no filter). -/

/-- `options.htmlRetentionMode`. -/
inductive RetentionMode where
  | standard
  | preserveAll
  | markdownIncludingHtml
deriving DecidableEq

/-- The options slice rule resolution reads. -/
structure OptionsModel where
  htmlRetentionMode : RetentionMode

/-- A node as `Rules.forNode` and `isUnsupportedElement` read it: the
(uppercase, DOM-style) tag name, the attribute names in order, the first
child's tag name and attribute names, the parent's tag name, and the
precomputed blank classification. -/
structure NodeModel where
  nodeName : List Char
  attributes : List (List Char)
  firstChild : Option (List Char × List (List Char))
  parentName : Option (List Char)
  isBlank : Bool

/-- ASCII lowercasing, as `toLowerCase` acts on the ASCII tag and
attribute names the engine compares. -/
def asciiLowerChar (c : Char) : Char :=
  if 'A' ≤ c ∧ c ≤ 'Z' then Char.ofNat (c.toNat + 32) else c

/-- `String.prototype.toLowerCase` on ASCII names. -/
def asciiLower (s : List Char) : List Char :=
  s.map asciiLowerChar

/-- `standardMarkdownElements` from utilities.ts. -/
def standardMarkdownElements : List (List Char) :=
  ["P", "BR", "H1", "H2", "H3", "H4", "H5", "H6", "BLOCKQUOTE",
   "UL", "OL", "LI", "PRE", "CODE", "HR", "A", "EM", "I", "STRONG",
   "B", "IMG", "DIV", "SPAN", "TABLE", "THEAD", "TBODY", "TR", "TH",
   "TD"].map String.toList

/-- `Rules.isUnsupportedElement`: a `pre` whose `code` first child carries
a non-`class` attribute; else, when attributes are present: `img` with an
attribute beyond src/alt/title, `a` beyond href/title, `code` directly
under `pre` beyond `class`, and every other attributed element (including
`code` NOT under `pre`, which falls through to the `default` case) is
unsupported; an attributeless element is unsupported exactly when its tag
is not a standard Markdown element. -/
def isUnsupportedElement (node : NodeModel) : Bool :=
  let preCodeBad :=
    match node.firstChild with
    | some (childName, childAttrs) =>
      (node.nodeName == "PRE".toList) && (childName == "CODE".toList)
        && childAttrs.any (fun a => !(asciiLower a == "class".toList))
    | none => false
  if preCodeBad then true
  else if 0 < node.attributes.length then
    if node.nodeName == "IMG".toList then
      node.attributes.any (fun a =>
        !(asciiLower a == "src".toList) && !(asciiLower a == "alt".toList)
          && !(asciiLower a == "title".toList))
    else if node.nodeName == "A".toList then
      node.attributes.any (fun a =>
        !(asciiLower a == "href".toList) && !(asciiLower a == "title".toList))
    else if node.nodeName == "CODE".toList && node.parentName == some "PRE".toList then
      node.attributes.any (fun a => !(asciiLower a == "class".toList))
    else true
  else !(standardMarkdownElements.contains node.nodeName)

/-- A rule filter: a tag-name string, a tag-name array, or a predicate
receiving the node and the options (the three shapes `filterValue`
accepts; anything else is the fatal configuration error of §7). -/
inductive RuleFilterModel where
  | tagName : List Char → RuleFilterModel
  | tagList : List (List Char) → RuleFilterModel
  | pred : (NodeModel → OptionsModel → Bool) → RuleFilterModel

/-- `filterValue`: exact lowercase tag match, tag-set membership, or the
predicate's verdict. -/
def filterValue {α : Type} (rule : RuleFilterModel × α)
    (node : NodeModel) (options : OptionsModel) : Bool :=
  match rule.1 with
  | .tagName s => s == asciiLower node.nodeName
  | .tagList l => l.contains (asciiLower node.nodeName)
  | .pred f => f node options

/-- `findRule`: the first rule in the list whose filter matches. -/
def findRule {α : Type} (rules : List (RuleFilterModel × α))
    (node : NodeModel) (options : OptionsModel) : Option (RuleFilterModel × α) :=
  rules.find? (fun r => filterValue r node options)

/-- The `Rules` instance state: the combined built-in+added array and the
keep/remove lists (each rule a filter with its replacement), plus the
replacements of the filterless singleton rules. `removeReplacement`
models the literal empty-string function `remove` installs. -/
structure RulesState (α : Type) where
  array : List (RuleFilterModel × α)
  keepRules : List (RuleFilterModel × α)
  removeRules : List (RuleFilterModel × α)
  blankReplacement : α
  keepReplacement : α
  markdownIncludingHtmlReplacement : α
  defaultReplacement : α
  removeReplacement : α

/-- `Rules.add`: `this.array.unshift(rule)` — the key is recorded nowhere,
the rule simply goes to the front. -/
def rulesAdd {α : Type} (rs : RulesState α) (_key : List Char)
    (rule : RuleFilterModel × α) : RulesState α :=
  { rs with array := rule :: rs.array }

/-- `Rules.keep`: unshift a rule pairing the filter with the keep
replacement. -/
def rulesKeep {α : Type} (rs : RulesState α) (filter : RuleFilterModel) :
    RulesState α :=
  { rs with keepRules := (filter, rs.keepReplacement) :: rs.keepRules }

/-- `Rules.remove`: unshift a rule pairing the filter with the
empty-string replacement. -/
def rulesRemove {α : Type} (rs : RulesState α) (filter : RuleFilterModel) :
    RulesState α :=
  { rs with removeRules := (filter, rs.removeReplacement) :: rs.removeRules }

/-- `Rules.forNode`: blank rule, then the retention replacements when the
mode is enabled and the node unsupported, then the combined array, the
keep list, the remove list, and finally the default rule. The result is
the resolved rule: its optional filter and its replacement. -/
def forNode {α : Type} (rs : RulesState α) (options : OptionsModel)
    (node : NodeModel) : Option RuleFilterModel × α :=
  if node.isBlank then (none, rs.blankReplacement)
  else if options.htmlRetentionMode = RetentionMode.preserveAll
      ∧ isUnsupportedElement node then
    (none, rs.keepReplacement)
  else if options.htmlRetentionMode = RetentionMode.markdownIncludingHtml
      ∧ isUnsupportedElement node then
    (none, rs.markdownIncludingHtmlReplacement)
  else
    match findRule rs.array node options with
    | some r => (some r.1, r.2)
    | none =>
      match findRule rs.keepRules node options with
      | some r => (some r.1, r.2)
      | none =>
        match findRule rs.removeRules node options with
        | some r => (some r.1, r.2)
        | none => (none, rs.defaultReplacement)

lemma forNode_no_blank_no_retention {α : Type} (rs : RulesState α)
    (options : OptionsModel) (node : NodeModel)
    (hb : node.isBlank = false)
    (hm : options.htmlRetentionMode = RetentionMode.standard
      ∨ isUnsupportedElement node = false) :
    forNode rs options node =
      (match findRule rs.array node options with
       | some r => (some r.1, r.2)
       | none =>
         match findRule rs.keepRules node options with
         | some r => (some r.1, r.2)
         | none =>
           match findRule rs.removeRules node options with
           | some r => (some r.1, r.2)
           | none => (none, rs.defaultReplacement)) := by
  unfold forNode
  rw [if_neg (by simp [hb]), if_neg ?_, if_neg ?_]
  · rintro ⟨hp, hu⟩
    rcases hm with hm | hm
    · rw [hm] at hp
      cases hp
    · rw [hm] at hu
      cases hu
  · rintro ⟨hp, hu⟩
    rcases hm with hm | hm
    · rw [hm] at hp
      cases hp
    · rw [hm] at hu
      cases hu

lemma findRule_first {α : Type} (node : NodeModel) (options : OptionsModel) :
    ∀ (rules : List (RuleFilterModel × α)) (r : RuleFilterModel × α),
      findRule rules node options = some r →
      filterValue r node options = true
        ∧ ∃ i, ∃ hi : i < rules.length, rules.get ⟨i, hi⟩ = r
            ∧ ∀ j (hj : j < i),
                filterValue (rules.get ⟨j, Nat.lt_trans hj hi⟩) node options = false := by
  intro rules
  induction rules with
  | nil => intro r h; cases h
  | cons a t ih =>
    intro r h
    unfold findRule at h
    rw [List.find?_cons] at h
    by_cases hp : filterValue a node options = true
    · simp only [hp] at h
      cases h
      exact ⟨hp, 0, by simp, rfl, fun j hj => absurd hj (by omega)⟩
    · have hp' : filterValue a node options = false := Bool.of_not_eq_true hp
      simp only [hp'] at h
      obtain ⟨hr, i, hi, hget, hbefore⟩ := ih r h
      refine ⟨hr, i + 1, by simpa using Nat.succ_lt_succ hi, hget, ?_⟩
      intro j hj
      match j with
      | 0 => simpa using hp'
      | j' + 1 =>
        have hj' : j' < i := by omega
        simpa using hbefore j' hj'

/-- **C5**: rule resolution returns exactly one rule under the fixed
precedence: the blank rule for a blank node; else the retention-mode
replacement when retention is enabled and the node is unsupported; else
the first matching rule of the combined added+built-in array — `add` puts
the new rule at the front, so a matching user-added rule wins over every
built-in; else the first matching keep rule (newest first); else the
first matching remove rule (newest first); else the default rule.
`findRule` is characterised as the match with the least index. -/
theorem rule_resolution_precedence {α : Type}
    (rs : RulesState α) (options : OptionsModel) (node : NodeModel)
    (rule : RuleFilterModel × α) (key : List Char) (f : RuleFilterModel) :
    (node.isBlank = true →
        forNode rs options node = (none, rs.blankReplacement))
      ∧ (node.isBlank = false →
          options.htmlRetentionMode = RetentionMode.preserveAll →
          isUnsupportedElement node = true →
          forNode rs options node = (none, rs.keepReplacement))
      ∧ (node.isBlank = false →
          options.htmlRetentionMode = RetentionMode.markdownIncludingHtml →
          isUnsupportedElement node = true →
          forNode rs options node = (none, rs.markdownIncludingHtmlReplacement))
      ∧ (node.isBlank = false →
          (options.htmlRetentionMode = RetentionMode.standard
            ∨ isUnsupportedElement node = false) →
          filterValue rule node options = true →
          forNode (rulesAdd rs key rule) options node = (some rule.1, rule.2))
      ∧ (node.isBlank = false →
          (options.htmlRetentionMode = RetentionMode.standard
            ∨ isUnsupportedElement node = false) →
          (∀ r, findRule rs.array node options = some r →
              forNode rs options node = (some r.1, r.2))
            ∧ (findRule rs.array node options = none →
                ∀ r, findRule rs.keepRules node options = some r →
                  forNode rs options node = (some r.1, r.2))
            ∧ (findRule rs.array node options = none →
                findRule rs.keepRules node options = none →
                ∀ r, findRule rs.removeRules node options = some r →
                  forNode rs options node = (some r.1, r.2))
            ∧ (findRule rs.array node options = none →
                findRule rs.keepRules node options = none →
                findRule rs.removeRules node options = none →
                forNode rs options node = (none, rs.defaultReplacement)))
      ∧ (node.isBlank = false →
          (options.htmlRetentionMode = RetentionMode.standard
            ∨ isUnsupportedElement node = false) →
          findRule rs.array node options = none →
          filterValue (f, rs.keepReplacement) node options = true →
          forNode (rulesKeep rs f) options node = (some f, rs.keepReplacement))
      ∧ (node.isBlank = false →
          (options.htmlRetentionMode = RetentionMode.standard
            ∨ isUnsupportedElement node = false) →
          findRule rs.array node options = none →
          findRule rs.keepRules node options = none →
          filterValue (f, rs.removeReplacement) node options = true →
          forNode (rulesRemove rs f) options node = (some f, rs.removeReplacement))
      ∧ (∀ (rules : List (RuleFilterModel × α)) (r : RuleFilterModel × α),
          findRule rules node options = some r →
            filterValue r node options = true
              ∧ ∃ i, ∃ hi : i < rules.length, rules.get ⟨i, hi⟩ = r
                  ∧ ∀ j (hj : j < i),
                      filterValue (rules.get ⟨j, Nat.lt_trans hj hi⟩)
                        node options = false) := by
  refine ⟨?_, ?_, ?_, ?_, ?_, ?_, ?_, findRule_first node options⟩
  · intro hb
    unfold forNode
    rw [if_pos (by simp [hb])]
  · intro hb hp hu
    unfold forNode
    rw [if_neg (by simp [hb]), if_pos ⟨hp, by simp [hu]⟩]
  · intro hb hp hu
    unfold forNode
    rw [if_neg (by simp [hb]), if_neg ?_, if_pos ⟨hp, by simp [hu]⟩]
    rintro ⟨hmode, _⟩
    rw [hp] at hmode
    cases hmode
  · intro hb hm hf
    rw [forNode_no_blank_no_retention _ _ _ hb hm]
    show (match findRule (rule :: rs.array) node options with
      | some r => (some r.1, r.2)
      | none => _) = _
    unfold findRule
    rw [List.find?_cons]
    simp [hf]
  · intro hb hm
    refine ⟨?_, ?_, ?_, ?_⟩
    · intro r hr
      rw [forNode_no_blank_no_retention _ _ _ hb hm, hr]
    · intro ha r hr
      rw [forNode_no_blank_no_retention _ _ _ hb hm, ha, hr]
    · intro ha hk r hr
      rw [forNode_no_blank_no_retention _ _ _ hb hm, ha, hk, hr]
    · intro ha hk hrm
      rw [forNode_no_blank_no_retention _ _ _ hb hm, ha, hk, hrm]
  · intro hb hm ha hf
    rw [forNode_no_blank_no_retention _ _ _ hb hm]
    show (match findRule rs.array node options with
      | some r => (some r.1, r.2)
      | none =>
        match findRule ((f, rs.keepReplacement) :: rs.keepRules) node options with
        | some r => (some r.1, r.2)
        | none => _) = _
    rw [ha]
    unfold findRule
    rw [List.find?_cons]
    simp [hf]
  · intro hb hm ha hk hf
    rw [forNode_no_blank_no_retention _ _ _ hb hm]
    show (match findRule rs.array node options with
      | some r => (some r.1, r.2)
      | none =>
        match findRule rs.keepRules node options with
        | some r => (some r.1, r.2)
        | none =>
          match findRule ((f, rs.removeReplacement) :: rs.removeRules) node options with
          | some r => (some r.1, r.2)
          | none => _) = _
    rw [ha, hk]
    unfold findRule
    rw [List.find?_cons]
    simp [hf]

/-- Witness for C5: on an `EM` node, a user-added `em` rule wins over any
built-in content of the array. -/
theorem rule_resolution_precedence_witness :
    forNode
        (rulesAdd
          (⟨[(RuleFilterModel.tagName "em".toList, 7)], [], [], 10, 11, 12, 13, 14⟩ :
            RulesState Nat)
          "myRule".toList (RuleFilterModel.tagName "em".toList, 20))
        ⟨RetentionMode.standard⟩
        ⟨"EM".toList, [], none, none, false⟩
      = (some (RuleFilterModel.tagName "em".toList), 20) :=
  (rule_resolution_precedence
      (⟨[(RuleFilterModel.tagName "em".toList, 7)], [], [], 10, 11, 12, 13, 14⟩ :
        RulesState Nat)
      ⟨RetentionMode.standard⟩ ⟨"EM".toList, [], none, none, false⟩
      (RuleFilterModel.tagName "em".toList, 20) "myRule".toList
      (RuleFilterModel.tagName "em".toList)).2.2.2.1
    rfl (Or.inl rfl) (by decide)

end Turnish
